import Mathlib

set_option linter.unusedSectionVars false
set_option linter.unusedVariables false

/-
Verification of the Poseidon2b / Anemoi permutation benchmark suite and its
parameter-generation engine, shallowly embedded over an arbitrary field of
characteristic 2 (the repository instantiates binary tower fields GF(2^32),
GF(2^64), GF(2^128); all the verified properties are field-generic and the
characteristic-2 assumption appears as an explicit hypothesis where used).

States and matrices are embedded as total functions from natural-number
indices; the code's fixed-length vectors touch exactly the indices below the
configured width, and every theorem below restricts attention to that range.
The raw-constant injection from_u8(1) is the multiplicative identity in the
tower basis and is embedded as (1 : F).
-/

section FieldHelpers

variable {F : Type} [Field F] [DecidableEq F]

/-- Embedding of safe_square (binius square): x * x. -/
def fsq (x : F) : F := x * x

/-- Embedding of FieldOps::pow_alpha from both benchmark crates: the fixed
addition chain square, square, multiply, multiply computing x^7. -/
def powAlpha (x : F) : F := x * fsq x * fsq (fsq x)

/-- Loop body of pow_const (anemoi_bench main.rs): square-and-multiply over the
binary expansion of the exponent.  The extra first argument is fuel equal to
the initial exponent, which bounds the number of halvings; the recursion is
structural so that the definition evaluates in the kernel. -/
def powConstGo : ℕ → F → ℕ → F → F
  | 0, _, _, acc => acc
  | fuel + 1, base, e, acc =>
    if e = 0 then acc
    else powConstGo fuel (fsq base) (e / 2) (if e % 2 = 1 then acc * base else acc)

/-- Embedding of pow_const(base, exp) from anemoi_bench main.rs. -/
def powConst (base : F) (e : ℕ) : F := powConstGo e base e 1

end FieldHelpers

section Poseidon2bDefs

variable {F : Type} [Field F] [DecidableEq F]

/-- Parameter bundle of the Poseidon2b engine (struct Poseidon2b in
poseidon2b_bench main.rs).  rc is indexed lane-first, round-second, exactly as
the source's rc[i][r]. -/
structure Pos2b (F : Type) where
  t : ℕ
  rf : ℕ
  rp : ℕ
  rc : ℕ → ℕ → F
  mdsFull : ℕ → ℕ → F
  mdsPartial : ℕ → ℕ → F
  mdsFullFast : Option (ℕ × F)

/-- Naive O(t^2) row-by-column matrix-vector product, the accumulation loop
shared by the t = 6 branch and the fallback branch of mul_mds_full. -/
def naiveMulVec (t : ℕ) (mds : ℕ → ℕ → F) (v : ℕ → F) : ℕ → F :=
  fun r => ∑ c ∈ Finset.range t, mds r c * v c

/-- The 3-block-multiplication Karatsuba-style product used by both the t = 4
branch and the per-block step of the block branch of mul_mds_full:
P1 = A·(x0,x1), P2 = B·(x2,x3), P3 = (A+B)·(x0+x2, x1+x3),
(y0,y1) = P1+P2, (y2,y3) = P3+(y0,y1). -/
def karat4 (a00 a01 a10 a11 b00 b01 b10 b11 x0 x1 x2 x3 : F) : F × F × F × F :=
  let s0 := x0 + x2
  let s1 := x1 + x3
  let p10 := a00 * x0 + a01 * x1
  let p11 := a10 * x0 + a11 * x1
  let p20 := b00 * x2 + b01 * x3
  let p21 := b10 * x2 + b11 * x3
  let p30 := (a00 + b00) * s0 + (a01 + b01) * s1
  let p31 := (a10 + b10) * s0 + (a11 + b11) * s1
  (p10 + p20, p11 + p21, p30 + (p10 + p20), p31 + (p11 + p21))

/-- The scan inside MdsFullFast::new: the first (r, c) with r, c < 4 such that
mds[r][c + 4] is nonzero yields X = mds[r][c] / mds[r][c + 4]. -/
def findX (mds : ℕ → ℕ → F) : Option F :=
  (((List.range 4).flatMap fun r => (List.range 4).map fun c => (r, c)).find?
      fun rc => decide (mds rc.1 (rc.2 + 4) ≠ 0)).map
    fun rc => mds rc.1 rc.2 * (mds rc.1 (rc.2 + 4))⁻¹

/-- Embedding of MdsFullFast::new: for t ≥ 8 with t a multiple of 4, recover
X from the matrix and store (k, X + 1) where k = t / 4; from_u8(1) is the
multiplicative identity. -/
def mdsFullFastNew (mds : ℕ → ℕ → F) (t : ℕ) : Option (ℕ × F) :=
  if t < 8 ∨ t % 4 ≠ 0 then none
  else (findX mds).map fun x => (t / 4, x + 1)

/-- The four output lanes of the Karatsuba block product, selected by lane
index (the four scalar writes of the source). -/
def karatPick (q : F × F × F × F) (j : ℕ) : F :=
  if j = 0 then q.1 else if j = 1 then q.2.1 else if j = 2 then q.2.2.1 else q.2.2.2

/-- The per-block M4 application of the block branch of mul_mds_full: the
block containing idx is idx / 4, its four lanes feed the Karatsuba product
built from the A and B blocks read at rows 0..1, columns 4..7 of the full
matrix, and lane idx % 4 of the product is returned. -/
def blockTmp (mds : ℕ → ℕ → F) (state : ℕ → F) (idx : ℕ) : F :=
  karatPick
    (karat4 (mds 0 4) (mds 0 5) (mds 1 4) (mds 1 5) (mds 0 6) (mds 0 7) (mds 1 6) (mds 1 7)
      (state (4 * (idx / 4))) (state (4 * (idx / 4) + 1))
      (state (4 * (idx / 4) + 2)) (state (4 * (idx / 4) + 3)))
    (idx % 4)

/-- The t in {8,12,16,24} branch of mul_mds_full: per-block partial results
and their running sum across blocks, combined per C = (X-1)I + J as
sum_of_all_blocks + (X+1)·block_partial_result. -/
def blockFastMul (k : ℕ) (xp1 : F) (mds : ℕ → ℕ → F) (state : ℕ → F) : ℕ → F :=
  fun idx =>
    if idx < 4 * k then
      (∑ b ∈ Finset.range k, blockTmp mds state (4 * b + idx % 4)) + blockTmp mds state idx * xp1
    else state idx

/-- Embedding of the value computed by Poseidon2b::mul_mds_full with its
four-way dispatch on t: the Karatsuba block form for t = 4, the naive product
for t = 6, the block-decomposition via C tensor M4 for t in {8,12,16,24}, and
the naive product otherwise.  In the none branch the source panics at
.expect("mds_full_fast missing"); that panic is captured by the fallible
companion mulMdsFullE below, while this pure function leaves the state
unchanged there and is only used where the branch is unreachable (C1's
hypotheses) or identical on both sides of an equality (C2). -/
def mulMdsFull (p : Pos2b F) (state : ℕ → F) : ℕ → F :=
  if p.t = 4 then
    fun i =>
      if i < 4 then
        karatPick
          (karat4 (p.mdsFull 0 0) (p.mdsFull 0 1) (p.mdsFull 1 0) (p.mdsFull 1 1)
            (p.mdsFull 0 2) (p.mdsFull 0 3) (p.mdsFull 1 2) (p.mdsFull 1 3)
            (state 0) (state 1) (state 2) (state 3)) i
      else state i
  else if p.t = 6 then naiveMulVec 6 p.mdsFull state
  else if p.t = 8 ∨ p.t = 12 ∨ p.t = 16 ∨ p.t = 24 then
    match p.mdsFullFast with
    | none => state
    | some kf => blockFastMul kf.1 kf.2 p.mdsFull state
  else naiveMulVec p.t p.mdsFull state

/-- Fallible embedding of Poseidon2b::mul_mds_full: the t in {8,12,16,24}
branch reads the fast parameters through .expect("mds_full_fast missing"),
which panics when they are absent; that panic is none here.  Every other
branch succeeds with the value of the pure dispatch above (whose none branch
is exactly the panic this definition captures). -/
def mulMdsFullE (p : Pos2b F) (state : ℕ → F) : Option (ℕ → F) :=
  if p.t = 8 ∨ p.t = 12 ∨ p.t = 16 ∨ p.t = 24 then
    match p.mdsFullFast with
    | none => none
    | some _ => some (mulMdsFull p state)
  else some (mulMdsFull p state)

/-- Embedding of Poseidon2b::mul_mds_partial: result[i] = (sum of all lanes)
plus (mu_i + 1) times lane i, where mu_i is the diagonal entry and from_u8(1)
is the multiplicative identity (in characteristic 2 this is mu_i - 1). -/
def mulMdsPartial (p : Pos2b F) (state : ℕ → F) : ℕ → F :=
  fun i => (∑ j ∈ Finset.range p.t, state j) + (p.mdsPartial i i + 1) * state i

/-- Embedding of Poseidon2b::round_full for round-constant index r: add rc to
every lane, raise every lane to the 7th power, multiply by the full matrix. -/
def roundFull (p : Pos2b F) (r : ℕ) (s : ℕ → F) : ℕ → F :=
  mulMdsFull p fun i => powAlpha (s i + p.rc i r)

/-- Embedding of Poseidon2b::round_partial for round-constant index r: lane 0
gets the constant and the S-box, all other lanes pass through, then the
partial matrix is applied. -/
def roundPartial (p : Pos2b F) (r : ℕ) (s : ℕ → F) : ℕ → F :=
  mulMdsPartial p fun i => if i = 0 then powAlpha (s 0 + p.rc 0 r) else s i

/-- Embedding of Poseidon2b::permute: the initial full-MDS multiplication and
the three round loops threading the mutable round counter, exactly as the
source increments it. -/
def pos2bPermute (p : Pos2b F) (s : ℕ → F) : ℕ → F :=
  ((fun pr : (ℕ → F) × ℕ => (roundFull p pr.2 pr.1, pr.2 + 1))^[p.rf / 2]
    ((fun pr : (ℕ → F) × ℕ => (roundPartial p pr.2 pr.1, pr.2 + 1))^[p.rp]
      ((fun pr : (ℕ → F) × ℕ => (roundFull p pr.2 pr.1, pr.2 + 1))^[p.rf / 2]
        (mulMdsFull p s, 0)))).1

/-- Fallible embedding of Poseidon2b::round_full: the full-MDS multiplication
at the end of the round can hit the missing-fast-parameters panic. -/
def roundFullE (p : Pos2b F) (r : ℕ) (s : ℕ → F) : Option (ℕ → F) :=
  mulMdsFullE p fun i => powAlpha (s i + p.rc i r)

/-- A run of full rounds threading the round counter, stopping with none as
soon as a round panics. -/
def iterFullE (p : Pos2b F) : ℕ → (ℕ → F) × ℕ → Option ((ℕ → F) × ℕ)
  | 0, pr => some pr
  | n + 1, pr =>
    match roundFullE p pr.2 pr.1 with
    | none => none
    | some s => iterFullE p n (s, pr.2 + 1)

/-- Fallible embedding of Poseidon2b::permute: the same schedule as
pos2bPermute (initial full-MDS layer, rf/2 full rounds, rp partial rounds,
rf/2 full rounds, one threaded round counter), but every full-MDS
multiplication propagates the missing-fast-parameters panic as none.
Partial rounds only use the partial matrix and cannot panic. -/
def pos2bPermuteE (p : Pos2b F) (s : ℕ → F) : Option (ℕ → F) :=
  match mulMdsFullE p s with
  | none => none
  | some s0 =>
    match iterFullE p (p.rf / 2) (s0, 0) with
    | none => none
    | some pr1 =>
      match iterFullE p (p.rf / 2)
          ((fun q : (ℕ → F) × ℕ => (roundPartial p q.2 q.1, q.2 + 1))^[p.rp] pr1) with
      | none => none
      | some pr2 => some pr2.1

/-- Restatement of the partial round the way the specification describes it:
the state is modified at lane 0 only (constant addition and 7th power there),
then multiplied by the partial matrix. -/
def roundPartialSpec (p : Pos2b F) (r : ℕ) (s : ℕ → F) : ℕ → F :=
  mulMdsPartial p (Function.update s 0 (powAlpha (s 0 + p.rc 0 r)))

/-- Restatement of the permutation schedule the way the specification
describes it: one initial full-MDS layer, then rf/2 full rounds on
round-constant indices 0..rf/2-1, then rp partial rounds on indices
rf/2..rf/2+rp-1, then rf/2 full rounds on indices rf/2+rp..rf+rp-1, a single
consecutive round-constant index across all rounds. -/
def pos2bPermuteStructured (p : Pos2b F) (s : ℕ → F) : ℕ → F :=
  let s0 := mulMdsFull p s
  let s1 := (List.range (p.rf / 2)).foldl (fun st r => roundFull p r st) s0
  let s2 := (List.range p.rp).foldl (fun st j => roundPartialSpec p (p.rf / 2 + j) st) s1
  (List.range (p.rf / 2)).foldl (fun st j => roundFull p (p.rf / 2 + p.rp + j) st) s2

end Poseidon2bDefs

section AnemoiDefs

variable {F : Type} [Field F] [DecidableEq F]

/-- Parameter bundle of the Anemoi engine (struct AnemoiParams in
anemoi_bench main.rs): half-width l, round count, the S-box inverse exponent,
the generator beta, its inverse delta, the two round-constant matrices c and d
(round-first, lane-second as in the source), and the MDS matrix. -/
structure AnemoiP (F : Type) where
  l : ℕ
  rounds : ℕ
  alphaInv : ℕ
  beta : F
  delta : F
  c : ℕ → ℕ → F
  d : ℕ → ℕ → F
  mds : ℕ → ℕ → F

/-- Embedding of the y_rot construction in Anemoi::linear_layer and
apply_mds_only: entries 0..l-2 take y[i+1] and entry l-1 takes y[0] (out of
range is the vec-default 0). -/
def yRotA (l : ℕ) (y : ℕ → F) : ℕ → F :=
  fun i => if i < l - 1 then y (i + 1) else if i = l - 1 then y 0 else 0

/-- Embedding of Anemoi::linear_layer: new_x0 = MDS·x and new_y0 = MDS·y_rot
are computed first, then the mixing loop sets new_y[i] = new_y0[i] + new_x0[i]
and new_x[i] = new_x0[i] + new_y[i] with the already-updated new_y[i]. -/
def anemoiLinearLayer (p : AnemoiP F) (x y : ℕ → F) : (ℕ → F) × (ℕ → F) :=
  (fun i => naiveMulVec p.l p.mds x i +
      (naiveMulVec p.l p.mds (yRotA p.l y) i + naiveMulVec p.l p.mds x i),
   fun i => naiveMulVec p.l p.mds (yRotA p.l y) i + naiveMulVec p.l p.mds x i)

/-- Embedding of Anemoi::apply_mds_only: MDS·x and MDS·y_rot with no mixing. -/
def anemoiMdsOnly (p : AnemoiP F) (x y : ℕ → F) : (ℕ → F) × (ℕ → F) :=
  (naiveMulVec p.l p.mds x, naiveMulVec p.l p.mds (yRotA p.l y))

/-- Embedding of Anemoi::apply_sbox (closed Flystel):
x += beta·y^7 + delta; y += x^(1/7); x += beta·y^7. -/
def anemoiSbox (p : AnemoiP F) (x y : F) : F × F :=
  (x + p.beta * powConst y 7 + p.delta + p.beta *
      powConst (y + powConst (x + p.beta * powConst y 7 + p.delta) p.alphaInv) 7,
   y + powConst (x + p.beta * powConst y 7 + p.delta) p.alphaInv)

/-- One Anemoi round for round index r: add the round constants c[r], d[r],
apply the linear layer, then the per-lane S-box. -/
def anemoiRound (p : AnemoiP F) (r : ℕ) (xy : (ℕ → F) × (ℕ → F)) : (ℕ → F) × (ℕ → F) :=
  (fun i => (anemoiSbox p
      ((anemoiLinearLayer p (fun j => xy.1 j + p.c r j) (fun j => xy.2 j + p.d r j)).1 i)
      ((anemoiLinearLayer p (fun j => xy.1 j + p.c r j) (fun j => xy.2 j + p.d r j)).2 i)).1,
   fun i => (anemoiSbox p
      ((anemoiLinearLayer p (fun j => xy.1 j + p.c r j) (fun j => xy.2 j + p.d r j)).1 i)
      ((anemoiLinearLayer p (fun j => xy.1 j + p.c r j) (fun j => xy.2 j + p.d r j)).2 i)).2)

/-- Embedding of Anemoi::permute: split the state into x = state[..l] and
y = state[l..], run all rounds, apply the final linear-only layer, and return
the concatenation of x and y. -/
def anemoiPermute (p : AnemoiP F) (state : ℕ → F) : ℕ → F :=
  fun i =>
    if i < p.l then
      (anemoiMdsOnly p
        ((List.range p.rounds).foldl (fun xy r => anemoiRound p r xy)
          (fun j => state j, fun j => state (p.l + j))).1
        ((List.range p.rounds).foldl (fun xy r => anemoiRound p r xy)
          (fun j => state j, fun j => state (p.l + j))).2).1 i
    else
      (anemoiMdsOnly p
        ((List.range p.rounds).foldl (fun xy r => anemoiRound p r xy)
          (fun j => state j, fun j => state (p.l + j))).1
        ((List.range p.rounds).foldl (fun xy r => anemoiRound p r xy)
          (fun j => state j, fun j => state (p.l + j))).2).2 (i - p.l)

/-- Restatement of the rotation the way the specification describes it:
y_rot[i] = y[(i+1) mod l]. -/
def yRotSpec (l : ℕ) (y : ℕ → F) : ℕ → F := fun i => y ((i + 1) % l)

/-- Restatement of the linear diffusion layer the way the specification
describes it: new_x = MDS·x, then new_y = MDS·(y rotated by one) updated as
new_y = new_y + new_x, and then new_x = new_x + new_y using the
already-updated new_y, in exactly this order. -/
def anemoiLinearLayerSpec (p : AnemoiP F) (x y : ℕ → F) : (ℕ → F) × (ℕ → F) :=
  (fun i => naiveMulVec p.l p.mds x i +
      (naiveMulVec p.l p.mds (yRotSpec p.l y) i + naiveMulVec p.l p.mds x i),
   fun i => naiveMulVec p.l p.mds (yRotSpec p.l y) i + naiveMulVec p.l p.mds x i)

/-- Restatement of the final linear-only layer per the specification: MDS·x
and rotate-then-MDS·y, with no constant addition, no S-box, no mixing. -/
def anemoiMdsOnlySpec (p : AnemoiP F) (x y : ℕ → F) : (ℕ → F) × (ℕ → F) :=
  (naiveMulVec p.l p.mds x, naiveMulVec p.l p.mds (yRotSpec p.l y))

/-- One Anemoi round as the specification describes it. -/
def anemoiRoundSpec (p : AnemoiP F) (r : ℕ) (xy : (ℕ → F) × (ℕ → F)) : (ℕ → F) × (ℕ → F) :=
  (fun i => (anemoiSbox p
      ((anemoiLinearLayerSpec p (fun j => xy.1 j + p.c r j) (fun j => xy.2 j + p.d r j)).1 i)
      ((anemoiLinearLayerSpec p (fun j => xy.1 j + p.c r j) (fun j => xy.2 j + p.d r j)).2 i)).1,
   fun i => (anemoiSbox p
      ((anemoiLinearLayerSpec p (fun j => xy.1 j + p.c r j) (fun j => xy.2 j + p.d r j)).1 i)
      ((anemoiLinearLayerSpec p (fun j => xy.1 j + p.c r j) (fun j => xy.2 j + p.d r j)).2 i)).2)

/-- The whole Anemoi permutation as the specification describes it: R rounds
of constant addition, mod-rotation linear layer with the criss-cross mixing
order, per-lane S-box; then one final linear-only layer and the concatenation
of x and y. -/
def anemoiPermuteSpec (p : AnemoiP F) (state : ℕ → F) : ℕ → F :=
  fun i =>
    if i < p.l then
      (anemoiMdsOnlySpec p
        ((List.range p.rounds).foldl (fun xy r => anemoiRoundSpec p r xy)
          (fun j => state j, fun j => state (p.l + j))).1
        ((List.range p.rounds).foldl (fun xy r => anemoiRoundSpec p r xy)
          (fun j => state j, fun j => state (p.l + j))).2).1 i
    else
      (anemoiMdsOnlySpec p
        ((List.range p.rounds).foldl (fun xy r => anemoiRoundSpec p r xy)
          (fun j => state j, fun j => state (p.l + j))).1
        ((List.range p.rounds).foldl (fun xy r => anemoiRoundSpec p r xy)
          (fun j => state j, fun j => state (p.l + j))).2).2 (i - p.l)

end AnemoiDefs

section ParamGenDefs

variable {F : Type} [Field F] [DecidableEq F]

/-- Repeated multiplication starting from 1, the accumulator pattern of the
pi0_r and pi1_i power variables in build_constants (anemoi_gen.rs). -/
def powRep (a : F) : ℕ → F
  | 0 => 1
  | n + 1 => powRep a n * a

/-- Embedding of build_constants (anemoi_gen.rs): the two rounds-by-l
round-constant matrices C and D; entry (r, i) uses p0 = pi0^r and p1 = pi1^i
built by repeated multiplication, the shared term (p0 + p1)^7 via the
fixed-exponent-7 chain, C[r][i] = beta·p0^2 + pow_alpha and
D[r][i] = beta·p1^2 + pow_alpha + delta.  Entries outside the allocated
rounds-by-l range are the vec-default 0. -/
def buildConstants (l rounds : ℕ) (pi0 pi1 beta delta : F) : (ℕ → ℕ → F) × (ℕ → ℕ → F) :=
  (fun r i => if r < rounds ∧ i < l then
      beta * fsq (powRep pi0 r) + powAlpha (powRep pi0 r + powRep pi1 i) else 0,
   fun r i => if r < rounds ∧ i < l then
      beta * fsq (powRep pi1 i) + (powAlpha (powRep pi0 r + powRep pi1 i) + delta) else 0)

/-- The loop stopping condition of estimate_rounds (anemoi_gen.rs).  The
source compares log2(l·r) + 2·l·r·log2(9) >= security in f64; this is the
same threshold expressed exactly: l·r·9^(2·l·r) >= 2^security. -/
def complexityReached (l security r : ℕ) : Bool :=
  decide (2 ^ security ≤ l * r * 9 ^ (2 * (l * r)))

/-- The round-counter loop of estimate_rounds: increment r until the
complexity threshold is reached.  The fuel argument (instantiated with
security, which is always enough for l >= 1) makes the recursion structural;
running out of fuel returns the current counter. -/
def estimateLoopGo (l security : ℕ) : ℕ → ℕ → ℕ
  | 0, r => r + 1
  | fuel + 1, r =>
    if complexityReached l security (r + 1) then r + 1
    else estimateLoopGo l security fuel (r + 1)

/-- Embedding of estimate_rounds (anemoi_gen.rs): the unsupported-alpha match
arms panic (modelled as none); otherwise run the complexity loop from r = 0,
add the safety margin 2 + min(5, l+1) and take the maximum with the floor 8. -/
def estimateRounds (alpha l security : ℕ) : Option ℕ :=
  if alpha = 3 ∨ alpha = 5 ∨ alpha = 7 ∨ alpha = 9 ∨ alpha = 11 then
    some (Nat.max (estimateLoopGo l security security 0 + (2 + min 5 (l + 1))) 8)
  else none

end ParamGenDefs

section IsMdsDefs

variable {F : Type} [Field F] [DecidableEq F]

/-- Embedding of the combinations helper (anemoi_gen.rs): all strictly
increasing index lists of length k drawn from start..n-1, in the source's
enumeration order (smallest leading index first). -/
def combosGo (n : ℕ) : ℕ → ℕ → List (List ℕ)
  | 0, _ => [[]]
  | k + 1, start =>
    (List.range' start (n - start)).flatMap fun i => (combosGo n k (i + 1)).map fun l => i :: l

/-- Embedding of mask_from_indices: fold of mask |= 1 << i.  For indices below
16 this is exactly the source's u16 mask. -/
def maskOf (l : List ℕ) : ℕ := l.foldl (fun m i => m ||| (1 <<< i)) 0

/-- Association-list model of the HashMap cofactor cache; insertion prepends,
so the first match is the most recent insert, matching HashMap overwrite. -/
def lookupA : List ((ℕ × ℕ) × F) → ℕ × ℕ → Option F
  | [], _ => none
  | e :: es, k => if e.1 = k then some e.2 else lookupA es k

/-- Embedding of col_mask_full & !(1u16 << c): the u16 complement is xor with
0xFFFF = 65535. -/
def colMaskRemove (colMask c : ℕ) : ℕ := colMask &&& (65535 ^^^ (1 <<< c))

/-- The Laplace-expansion loop of is_mds: walk the chosen columns, look up the
cached size-(s-1) cofactor for (remaining rows, remaining columns) and
accumulate det += m[first_row][c] · cofactor.  A missing cofactor is the
source's panic, modelled as none. -/
def detLoop (mRow : ℕ → F) (cache : List ((ℕ × ℕ) × F)) (rowMaskTail colMaskFull : ℕ) :
    List ℕ → F → Option F
  | [], det => some det
  | c :: cs, det =>
    match lookupA cache (rowMaskTail, colMaskRemove colMaskFull c) with
    | none => none
    | some cof => detLoop mRow cache rowMaskTail colMaskFull cs (det + mRow c * cof)

/-- The doubly nested combination enumeration of one minor size in is_mds:
for each (row subset, column subset) pair compute the determinant; a zero
determinant clears the ok flag and is not cached; nonzero determinants are
inserted into the new cache under (row mask, column mask). -/
def pairsLoop (m : ℕ → ℕ → F) (cache : List ((ℕ × ℕ) × F)) :
    List (List ℕ × List ℕ) → Bool → List ((ℕ × ℕ) × F) → Option (Bool × List ((ℕ × ℕ) × F))
  | [], ok, newCache => some (ok, newCache)
  | rc :: rest, ok, newCache =>
    match rc.1 with
    | [] => none
    | i :: rtail =>
      match detLoop (m i) cache (maskOf rtail) (maskOf rc.2) rc.2 0 with
      | none => none
      | some det =>
        if det = 0 then pairsLoop m cache rest false newCache
        else pairsLoop m cache rest ok (((maskOf (i :: rtail), maskOf rc.2), det) :: newCache)

/-- The outer size loop of is_mds: sizes s = 2..n; after each size, return
false if some determinant vanished or nothing was cached, otherwise continue
with the fresh cache. -/
def sizesLoop (m : ℕ → ℕ → F) (n : ℕ) : List ℕ → List ((ℕ × ℕ) × F) → Option Bool
  | [], _ => some true
  | s :: rest, cache =>
    match pairsLoop m cache
        ((combosGo n s 0).flatMap fun rows => (combosGo n s 0).map fun cols => (rows, cols))
        true [] with
    | none => none
    | some okc =>
      if !okc.1 || okc.2.isEmpty then some false
      else sizesLoop m n rest okc.2

/-- The seeding loop of is_mds: all size-1 minors, keyed by the single-row and
single-column masks. -/
def seedCache (m : ℕ → ℕ → F) (n : ℕ) : List ((ℕ × ℕ) × F) :=
  (List.range n).flatMap fun r => (List.range n).map fun c => ((1 <<< r, 1 <<< c), m r c)

/-- The initial entry scan of is_mds: every entry must be nonzero. -/
def entriesNonzero (m : ℕ → ℕ → F) (n : ℕ) : Bool :=
  (List.range n).all fun r => (List.range n).all fun c => !(decide (m r c = 0))

/-- Embedding of is_mds (anemoi_gen.rs) for an n-by-n matrix: reject a zero
entry immediately, seed the size-1 cofactor cache, then run the incremental
minor computation for sizes 2..n.  The value none models the panic on a
missing cofactor; some b is the returned boolean. -/
def isMds (n : ℕ) (m : ℕ → ℕ → F) : Option Bool :=
  if entriesNonzero m n then sizesLoop m n (List.range' 2 (n - 1)) (seedCache m n)
  else some false

/-- Completeness of a cofactor cache at size s: every (row subset, column
subset) pair of size-s combinations has a cached entry under its mask key. -/
def CacheComplete (n s : ℕ) (cache : List ((ℕ × ℕ) × F)) : Prop :=
  ∀ rows ∈ combosGo n s 0, ∀ cols ∈ combosGo n s 0,
    (lookupA cache (maskOf rows, maskOf cols)).isSome

/-- Hand-built 2-by-2 matrix [[a, b], [c, d]] for the is_mds theorems. -/
def mat2 (a b c d : F) : ℕ → ℕ → F := fun r col =>
  if r = 0 then (if col = 0 then a else if col = 1 then b else 0)
  else if r = 1 then (if col = 0 then c else if col = 1 then d else 0)
  else 0

end IsMdsDefs

section CirculantDefs

variable {F : Type} [Field F] [DecidableEq F]

/-- Embedding of gen_vectors inside build_circulant_mds: all non-decreasing
coefficient vectors of length k with entries in start..=limit, in enumeration
order. -/
def genVectors (limit : ℕ) : ℕ → ℕ → List (List ℕ)
  | 0, _ => [[]]
  | k + 1, start =>
    (List.range' start (limit + 1 - start)).flatMap fun v =>
      (genVectors limit k v).map fun l => v :: l

/-- The circulant matrix built from a first-row coefficient vector:
m[r][c] = coeffs[(c + l - r) mod l], coefficients embedded into the field by
emb (the source's F::from_u8 of the u8-truncated coefficient). -/
def circulantOf (l : ℕ) (emb : ℕ → F) (coeffs : List ℕ) : ℕ → ℕ → F :=
  fun r c => emb (coeffs.getD ((c + l - r) % l) 0)

/-- One pass of the build_circulant_mds search at a fixed coefficient limit:
the first enumerated coefficient vector whose circulant matrix passes is_mds,
if any. -/
def searchAtLimit (l limit : ℕ) (emb : ℕ → F) : Option (ℕ → ℕ → F) :=
  ((genVectors limit l 1).find? fun coeffs =>
      decide (isMds l (circulantOf l emb coeffs) = some true)).map
    fun coeffs => circulantOf l emb coeffs

/-- Embedding of the unbounded retry loop of build_circulant_mds, made total
by fuel: each step scans one limit value and on failure retries with
limit + 1, exactly as the source's loop { ...; limit += 1 }.  The source has
no fuel: it never stops retrying, so none here means the source code is still
spinning with ever larger limits. -/
def buildCirculantFuel (l : ℕ) (emb : ℕ → F) : ℕ → ℕ → Option (ℕ → ℕ → F)
  | 0, _ => none
  | fuel + 1, limit =>
    match searchAtLimit l limit emb with
    | some m => some m
    | none => buildCirculantFuel l emb fuel (limit + 1)

/-- build_circulant_mds started at the initial limit l + 1, with fuel. -/
def buildCirculantMdsFueled (l : ℕ) (emb : ℕ → F) (fuel : ℕ) : Option (ℕ → ℕ → F) :=
  buildCirculantFuel l emb fuel (l + 1)

end CirculantDefs

section CheckedDefs

/-- The two ways a permute call can abort: the debug_assert length contract
check at entry, and Poseidon2b's .expect("mds_full_fast missing") panic when
the fast full-MDS parameters are absent for t in {8,12,16,24}. -/
inductive PermuteError : Type
  | lengthMismatch : PermuteError
  | missingFastParams : PermuteError
deriving DecidableEq

variable {F : Type} [Field F] [DecidableEq F]

/-- List-level entry point of Poseidon2b::permute: the debug_assert
state.len() == t is the contract-error path, and the body may still abort at
the missing-fast-parameters panic inside mul_mds_full; a successful state is
returned with its length intact. -/
def pos2bPermuteChecked (p : Pos2b F) (state : List F) : Except PermuteError (List F) :=
  if state.length = p.t then
    match pos2bPermuteE p fun j => state.getD j 0 with
    | none => .error .missingFastParams
    | some out => .ok ((List.range p.t).map out)
  else .error .lengthMismatch

/-- List-level entry point of Anemoi::permute with the debug_assert contract
state.len() == 2l; the Anemoi body contains no other panic. -/
def anemoiPermuteChecked (p : AnemoiP F) (state : List F) : Except PermuteError (List F) :=
  if state.length = 2 * p.l then
    .ok ((List.range (2 * p.l)).map (anemoiPermute p fun j => state.getD j 0))
  else .error .lengthMismatch

end CheckedDefs

section WitnessDefs

/-- Concrete GF(2) Poseidon2b bundle (t = 2) for witness evaluations. -/
def wPos2b : Pos2b (ZMod 2) :=
  { t := 2, rf := 2, rp := 1, rc := fun _ _ => 1, mdsFull := fun _ _ => 1,
    mdsPartial := fun i j => if i = j then 0 else 1, mdsFullFast := none }

/-- Concrete GF(2) Poseidon2b bundle (t = 8, all-ones full matrix) for the
fast-path witness. -/
def wPos2b8 : Pos2b (ZMod 2) :=
  { t := 8, rf := 8, rp := 1, rc := fun _ _ => 0, mdsFull := fun _ _ => 1,
    mdsPartial := fun _ _ => 1, mdsFullFast := mdsFullFastNew (fun _ _ => (1 : ZMod 2)) 8 }

/-- Degenerate GF(2) Poseidon2b bundle: t = 8 with an all-zero full matrix,
so MdsFullFast::new finds no nonzero entry in rows 0..3, columns 4..7 and the
fast parameters are missing; permute on this bundle hits the
.expect("mds_full_fast missing") panic even on a correct-length state. -/
def wPos2bDeg : Pos2b (ZMod 2) :=
  { t := 8, rf := 2, rp := 0, rc := fun _ _ => 0, mdsFull := fun _ _ => 0,
    mdsPartial := fun _ _ => 0, mdsFullFast := mdsFullFastNew (fun _ _ => (0 : ZMod 2)) 8 }

/-- Concrete GF(2) Anemoi bundle (l = 1) for witness evaluations. -/
def wAnemoi : AnemoiP (ZMod 2) :=
  { l := 1, rounds := 1, alphaInv := 1, beta := 1, delta := 1,
    c := fun _ _ => 1, d := fun _ _ => 1, mds := fun _ _ => 1 }

/-- Concrete GF(2) state function for witness evaluations. -/
def wState : ℕ → ZMod 2 := fun j => if j = 0 then 1 else 0

/-- The GF(2) coefficient embedding of build_circulant_mds: from_u8 truncates
to the 1-bit field, i.e. reduction mod 2. -/
def emb2 : ℕ → ZMod 2 := fun v => (v : ZMod 2)

end WitnessDefs

section Poseidon2bSchedule

variable {F : Type} [Field F] [DecidableEq F]

/-- Iterating a round function that threads the mutable round counter is the
same as folding the round function over the explicit list of consecutive
round indices. -/
theorem iterCounter (f : ℕ → (ℕ → F) → (ℕ → F)) :
    ∀ (n r0 : ℕ) (s0 : ℕ → F),
      (fun pr : (ℕ → F) × ℕ => (f pr.2 pr.1, pr.2 + 1))^[n] (s0, r0) =
        ((List.range n).foldl (fun s j => f (r0 + j) s) s0, r0 + n)
  | 0, r0, s0 => by simp
  | n + 1, r0, s0 => by
    rw [Function.iterate_succ_apply]
    have h1 := iterCounter f n (r0 + 1) (f r0 s0)
    show (fun pr : (ℕ → F) × ℕ => (f pr.2 pr.1, pr.2 + 1))^[n] (f r0 s0, r0 + 1) = _
    rw [h1, List.range_succ_eq_map]
    simp only [List.foldl_cons, List.foldl_map, Nat.add_zero, Nat.succ_eq_add_one]
    have hfun : (fun (s : ℕ → F) (j : ℕ) => f (r0 + 1 + j) s) =
        fun (s : ℕ → F) (j : ℕ) => f (r0 + (j + 1)) s := by
      funext s j
      rw [show r0 + 1 + j = r0 + (j + 1) by omega]
    rw [hfun, show r0 + 1 + n = r0 + (n + 1) by omega]

theorem roundPartial_eq_spec (p : Pos2b F) (r : ℕ) (s : ℕ → F) :
    roundPartial p r s = roundPartialSpec p r s := by
  unfold roundPartial roundPartialSpec
  have h : (fun i => if i = 0 then powAlpha (s 0 + p.rc 0 r) else s i) =
      Function.update s 0 (powAlpha (s 0 + p.rc 0 r)) := by
    funext i
    rw [Function.update_apply]
  rw [h]

/-- C2: for every parameter bundle and every state, Poseidon2b permute applies
exactly one initial full-MDS multiplication, then rf/2 full rounds, then rp
partial rounds, then rf/2 more full rounds, with a single round-constant index
running consecutively over all rf+rp rounds; each partial round adds its round
constant to lane 0 only and raises only lane 0 to the 7th power, leaving the
other lanes unchanged until the partial-MDS multiplication (this is the
content of pos2bPermuteStructured, which uses Function.update at lane 0 and
the explicit consecutive index lists). -/
theorem pos2b_permute_round_schedule (p : Pos2b F) (s : ℕ → F) :
    pos2bPermute p s = pos2bPermuteStructured p s := by
  unfold pos2bPermute pos2bPermuteStructured
  rw [iterCounter (fun r st => roundFull p r st), iterCounter (fun r st => roundPartial p r st),
    iterCounter (fun r st => roundFull p r st)]
  have h : (fun (st : ℕ → F) j => roundPartial p (p.rf / 2 + j) st) =
      fun (st : ℕ → F) j => roundPartialSpec p (p.rf / 2 + j) st := by
    funext st j
    rw [roundPartial_eq_spec]
  simp only [Nat.zero_add]
  rw [h]

end Poseidon2bSchedule

section AnemoiTheorems

variable {F : Type} [Field F] [DecidableEq F]

theorem naiveMulVec_congr {t : ℕ} (mds : ℕ → ℕ → F) {v w : ℕ → F}
    (h : ∀ j, j < t → v j = w j) : naiveMulVec t mds v = naiveMulVec t mds w := by
  funext r
  unfold naiveMulVec
  refine Finset.sum_congr rfl fun c hc => ?_
  rw [h c (Finset.mem_range.mp hc)]

theorem yRotA_eq_spec (l : ℕ) (y : ℕ → F) : ∀ j, j < l → yRotA l y j = yRotSpec l y j := by
  intro j hj
  unfold yRotA yRotSpec
  by_cases h1 : j < l - 1
  · rw [if_pos h1, Nat.mod_eq_of_lt (by omega)]
  · have hj1 : j = l - 1 := by omega
    rw [if_neg h1, if_pos hj1, hj1, show l - 1 + 1 = l by omega, Nat.mod_self]

theorem anemoiLinearLayer_eq_spec (p : AnemoiP F) (x y : ℕ → F) :
    anemoiLinearLayer p x y = anemoiLinearLayerSpec p x y := by
  unfold anemoiLinearLayer anemoiLinearLayerSpec
  rw [naiveMulVec_congr p.mds (yRotA_eq_spec p.l y)]

theorem anemoiMdsOnly_eq_spec (p : AnemoiP F) (x y : ℕ → F) :
    anemoiMdsOnly p x y = anemoiMdsOnlySpec p x y := by
  unfold anemoiMdsOnly anemoiMdsOnlySpec
  rw [naiveMulVec_congr p.mds (yRotA_eq_spec p.l y)]

theorem anemoiRound_eq_spec (p : AnemoiP F) (r : ℕ) (xy : (ℕ → F) × (ℕ → F)) :
    anemoiRound p r xy = anemoiRoundSpec p r xy := by
  unfold anemoiRound anemoiRoundSpec
  rw [anemoiLinearLayer_eq_spec]

/-- C3: in every Anemoi round, after the constant addition, the linear
diffusion layer computes new_x = MDS·x, then new_y = MDS·(y left-rotated by
one, y_rot[i] = y[(i+1) mod l]) updated as new_y = new_y + new_x, then
new_x = new_x + new_y with the already-updated new_y, in exactly this order,
before the per-lane S-box; after all rounds one final linear-only layer (no
constant addition, no S-box, no criss-cross mixing) is applied and the output
is x concatenated with y.  This is the content of anemoiPermuteSpec. -/
theorem anemoi_linear_layer_order (p : AnemoiP F) (state : ℕ → F) :
    anemoiPermute p state = anemoiPermuteSpec p state := by
  unfold anemoiPermute anemoiPermuteSpec
  rw [show (fun (xy : (ℕ → F) × (ℕ → F)) (r : ℕ) => anemoiRound p r xy) =
        fun xy r => anemoiRoundSpec p r xy from
      funext fun xy => funext fun r => anemoiRound_eq_spec p r xy,
    anemoiMdsOnly_eq_spec]

end AnemoiTheorems

section BuildConstantsTheorems

variable {F : Type} [Field F] [DecidableEq F]

theorem powRep_eq_pow (a : F) : ∀ n, powRep a n = a ^ n
  | 0 => by rw [powRep, pow_zero]
  | n + 1 => by rw [powRep, pow_succ, powRep_eq_pow a n]

theorem fsq_eq_pow (x : F) : fsq x = x ^ 2 := by
  unfold fsq
  ring

theorem powAlpha_eq_pow (x : F) : powAlpha x = x ^ 7 := by
  unfold powAlpha fsq
  ring

/-- C4: build_constants returns, for every round r < rounds and lane i < l,
C[r][i] = beta·(pi0^r)^2 + (pi0^r + pi1^i)^7 and
D[r][i] = beta·(pi1^i)^2 + (pi0^r + pi1^i)^7 + delta, with the powers built by
repeated multiplication from 1; in particular C[0][0] = beta and
D[0][0] = beta + delta because 1 + 1 = 0 in characteristic 2 and 0^7 = 0. -/
theorem anemoi_build_constants_recurrence (h2 : (2 : F) = 0)
    (l rounds : ℕ) (pi0 pi1 beta delta : F) :
    (∀ r, r < rounds → ∀ i, i < l →
      (buildConstants l rounds pi0 pi1 beta delta).1 r i =
          beta * (pi0 ^ r) ^ 2 + (pi0 ^ r + pi1 ^ i) ^ 7 ∧
      (buildConstants l rounds pi0 pi1 beta delta).2 r i =
          beta * (pi1 ^ i) ^ 2 + ((pi0 ^ r + pi1 ^ i) ^ 7 + delta)) ∧
    (0 < rounds → 0 < l →
      (buildConstants l rounds pi0 pi1 beta delta).1 0 0 = beta ∧
      (buildConstants l rounds pi0 pi1 beta delta).2 0 0 = beta + delta) := by
  have hmain : ∀ r, r < rounds → ∀ i, i < l →
      (buildConstants l rounds pi0 pi1 beta delta).1 r i =
          beta * (pi0 ^ r) ^ 2 + (pi0 ^ r + pi1 ^ i) ^ 7 ∧
      (buildConstants l rounds pi0 pi1 beta delta).2 r i =
          beta * (pi1 ^ i) ^ 2 + ((pi0 ^ r + pi1 ^ i) ^ 7 + delta) := by
    intro r hr i hi
    constructor
    · show (if r < rounds ∧ i < l then
          beta * fsq (powRep pi0 r) + powAlpha (powRep pi0 r + powRep pi1 i) else 0) = _
      rw [if_pos ⟨hr, hi⟩, fsq_eq_pow, powAlpha_eq_pow, powRep_eq_pow, powRep_eq_pow]
    · show (if r < rounds ∧ i < l then
          beta * fsq (powRep pi1 i) + (powAlpha (powRep pi0 r + powRep pi1 i) + delta)
          else 0) = _
      rw [if_pos ⟨hr, hi⟩, fsq_eq_pow, powAlpha_eq_pow, powRep_eq_pow, powRep_eq_pow]
  refine ⟨hmain, fun hr hl => ?_⟩
  have h00 := hmain 0 hr 0 hl
  have hzero : (pi0 ^ 0 + pi1 ^ 0 : F) = 0 := by
    rw [pow_zero, pow_zero, one_add_one_eq_two, h2]
  constructor
  · rw [h00.1, hzero, pow_zero, one_pow, mul_one, zero_pow (by norm_num), add_zero]
  · rw [h00.2, hzero, pow_zero, one_pow, mul_one, zero_pow (by norm_num), zero_add]

/-- Witness for C4 at l = rounds = 1 over GF(2) with all parameters 1. -/
theorem anemoi_build_constants_recurrence_witness :
    (buildConstants 1 1 (1 : ZMod 2) 1 1 1).1 0 0 = 1 ∧
      (buildConstants 1 1 (1 : ZMod 2) 1 1 1).2 0 0 = 1 + 1 :=
  (anemoi_build_constants_recurrence (by decide) 1 1 1 1 1 1).2 one_pos one_pos

end BuildConstantsTheorems

section MdsPartialTheorems

variable {F : Type} [Field F] [DecidableEq F]

/-- C5: mul_mds_partial replaces lane i by (sum of all lanes) plus
(mds_partial[i][i] - 1)·state[i], using only the diagonal; and whenever every
off-diagonal entry of the partial matrix is the multiplicative identity, this
O(t) result equals the naive matrix-vector product. -/
theorem pos2b_mul_mds_partial_diag (h2 : (2 : F) = 0) (p : Pos2b F) :
    (∀ (state : ℕ → F) (i : ℕ), i < p.t →
        mulMdsPartial p state i =
          (∑ j ∈ Finset.range p.t, state j) + (p.mdsPartial i i - 1) * state i) ∧
    (∀ state : ℕ → F,
        (∀ i, i < p.t → ∀ j, j < p.t → i ≠ j → p.mdsPartial i j = 1) →
        ∀ i, i < p.t → mulMdsPartial p state i = naiveMulVec p.t p.mdsPartial state i) := by
  constructor
  · intro state i _
    unfold mulMdsPartial
    linear_combination (state i) * h2
  · intro state hoff i hi
    unfold mulMdsPartial naiveMulVec
    rw [← Finset.add_sum_erase _ state (Finset.mem_range.mpr hi),
      ← Finset.add_sum_erase _ (fun j => p.mdsPartial i j * state j) (Finset.mem_range.mpr hi)]
    have hsum : ∑ j ∈ (Finset.range p.t).erase i, p.mdsPartial i j * state j =
        ∑ j ∈ (Finset.range p.t).erase i, state j := by
      refine Finset.sum_congr rfl fun j hj => ?_
      rw [hoff i hi j (Finset.mem_range.mp (Finset.mem_of_mem_erase hj))
        (Ne.symm (Finset.ne_of_mem_erase hj)), one_mul]
    rw [hsum]
    linear_combination (state i) * h2

/-- Witness for C5 over GF(2) with t = 2, an off-diagonal-ones partial matrix
and a concrete state. -/
theorem pos2b_mul_mds_partial_diag_witness :
    mulMdsPartial wPos2b wState 0 = naiveMulVec wPos2b.t wPos2b.mdsPartial wState 0 :=
  (pos2b_mul_mds_partial_diag (by decide) wPos2b).2 wState (by decide) 0 (by decide)

end MdsPartialTheorems

section EstimateRoundsTheorems

theorem reached_at_security (l s : ℕ) (hl : 1 ≤ l) (hs : 1 ≤ s) :
    complexityReached l s s = true := by
  unfold complexityReached
  apply decide_eq_true
  have h1 : s ≤ l * s := Nat.le_mul_of_pos_left s hl
  calc (2 : ℕ) ^ s ≤ 9 ^ s := Nat.pow_le_pow_left (by norm_num) s
    _ ≤ 9 ^ (2 * (l * s)) := Nat.pow_le_pow_right (by norm_num) (by omega)
    _ ≤ l * s * 9 ^ (2 * (l * s)) := Nat.le_mul_of_pos_left _ (by positivity)

theorem estimateLoopGo_reached (l security : ℕ) :
    ∀ fuel r, (∃ j, j ≤ fuel ∧ complexityReached l security (r + 1 + j) = true) →
      complexityReached l security (estimateLoopGo l security fuel r) = true
  | 0, r, h => by
    obtain ⟨j, hj, hr⟩ := h
    have hj0 : j = 0 := Nat.le_zero.mp hj
    subst hj0
    simpa using hr
  | fuel + 1, r, h => by
    unfold estimateLoopGo
    by_cases hc : complexityReached l security (r + 1) = true
    · rw [if_pos hc]
      exact hc
    · rw [if_neg hc]
      apply estimateLoopGo_reached l security fuel (r + 1)
      obtain ⟨j, hj, hr⟩ := h
      cases j with
      | zero => exact absurd (by simpa using hr) hc
      | succ j =>
        exact ⟨j, by omega, by rw [show r + 1 + 1 + j = r + 1 + (j + 1) by omega]; exact hr⟩

/-- C9: for every l ≥ 1 and security ≥ 1, estimate_rounds(7, l, security)
terminates (the complexity loop exits because the threshold is reached within
its bound, not by running out) and returns a value that is at least 8, the
floor applied after the safety margin 2 + min(5, l+1). -/
theorem estimate_rounds_floor (l security : ℕ) (hl : 1 ≤ l) (hs : 1 ≤ security) :
    ∃ v, estimateRounds 7 l security = some v ∧ 8 ≤ v ∧
      complexityReached l security (estimateLoopGo l security security 0) = true := by
  refine ⟨Nat.max (estimateLoopGo l security security 0 + (2 + min 5 (l + 1))) 8, ?_, ?_, ?_⟩
  · unfold estimateRounds
    rw [if_pos (by omega)]
  · exact Nat.le_max_right _ 8
  · apply estimateLoopGo_reached
    exact ⟨security - 1, by omega,
      by rw [show 0 + 1 + (security - 1) = security by omega]
         exact reached_at_security l security hl hs⟩

/-- Witness for C9 at l = security = 1. -/
theorem estimate_rounds_floor_witness :
    (1 ≤ 1) ∧ ∃ v, estimateRounds 7 1 1 = some v ∧ 8 ≤ v ∧
      complexityReached 1 1 (estimateLoopGo 1 1 1 0) = true :=
  ⟨le_refl 1, estimate_rounds_floor 1 1 (le_refl 1) (le_refl 1)⟩

end EstimateRoundsTheorems

section CheckedTheorems

variable {F : Type} [Field F] [DecidableEq F]

theorem mulMdsFullE_isSome (p : Pos2b F)
    (hfast : (p.t = 8 ∨ p.t = 12 ∨ p.t = 16 ∨ p.t = 24) → p.mdsFullFast.isSome)
    (s : ℕ → F) : (mulMdsFullE p s).isSome := by
  unfold mulMdsFullE
  by_cases ht : p.t = 8 ∨ p.t = 12 ∨ p.t = 16 ∨ p.t = 24
  · rw [if_pos ht]
    obtain ⟨kf, hkf⟩ := Option.isSome_iff_exists.mp (hfast ht)
    simp only [hkf]
    rfl
  · rw [if_neg ht]
    rfl

theorem iterFullE_isSome (p : Pos2b F)
    (hfast : (p.t = 8 ∨ p.t = 12 ∨ p.t = 16 ∨ p.t = 24) → p.mdsFullFast.isSome) :
    ∀ (n : ℕ) (pr : (ℕ → F) × ℕ), (iterFullE p n pr).isSome
  | 0, pr => rfl
  | n + 1, pr => by
    unfold iterFullE roundFullE
    obtain ⟨s, hs⟩ := Option.isSome_iff_exists.mp
      (mulMdsFullE_isSome p hfast fun i => powAlpha (pr.1 i + p.rc i pr.2))
    simp only [hs]
    exact iterFullE_isSome p hfast n (s, pr.2 + 1)

theorem pos2bPermuteE_isSome (p : Pos2b F)
    (hfast : (p.t = 8 ∨ p.t = 12 ∨ p.t = 16 ∨ p.t = 24) → p.mdsFullFast.isSome)
    (s : ℕ → F) : (pos2bPermuteE p s).isSome := by
  unfold pos2bPermuteE
  obtain ⟨s0, hs0⟩ := Option.isSome_iff_exists.mp (mulMdsFullE_isSome p hfast s)
  simp only [hs0]
  obtain ⟨pr1, hpr1⟩ := Option.isSome_iff_exists.mp (iterFullE_isSome p hfast (p.rf / 2) (s0, 0))
  simp only [hpr1]
  obtain ⟨pr2, hpr2⟩ := Option.isSome_iff_exists.mp (iterFullE_isSome p hfast (p.rf / 2)
    ((fun q : (ℕ → F) × ℕ => (roundPartial p q.2 q.1, q.2 + 1))^[p.rp] pr1))
  simp only [hpr2]
  rfl

/-- C7 (amended): for both engines, a state whose length differs from the
configured permutation width is reported as the contract error (the
debug_assert at entry), never silently truncated or padded.  The length
check is however not the only error path inside Poseidon2b's permute: the
.expect("mds_full_fast missing") panic is a second one; whenever the fast
full-MDS parameters are present when required (t in {8,12,16,24}), a state of
matching length always permutes successfully with its length preserved, and
the Anemoi permute, which has no other panic, always succeeds on a
matching-length state. -/
theorem permute_length_contract (p : Pos2b F) (q : AnemoiP F) (s1 s2 : List F) :
    (s1.length ≠ p.t → pos2bPermuteChecked p s1 = .error .lengthMismatch) ∧
    (s1.length = p.t →
      ((p.t = 8 ∨ p.t = 12 ∨ p.t = 16 ∨ p.t = 24) → p.mdsFullFast.isSome) →
      ∃ out, pos2bPermuteChecked p s1 = .ok out ∧ out.length = s1.length) ∧
    (s2.length ≠ 2 * q.l → anemoiPermuteChecked q s2 = .error .lengthMismatch) ∧
    (s2.length = 2 * q.l →
      ∃ out, anemoiPermuteChecked q s2 = .ok out ∧ out.length = s2.length) := by
  refine ⟨fun h => ?_, fun h hfast => ?_, fun h => ?_, fun h => ?_⟩
  · unfold pos2bPermuteChecked
    rw [if_neg h]
  · unfold pos2bPermuteChecked
    rw [if_pos h]
    obtain ⟨out, hout⟩ := Option.isSome_iff_exists.mp
      (pos2bPermuteE_isSome p hfast fun j => s1.getD j 0)
    simp only [hout]
    exact ⟨_, rfl, by simp [h]⟩
  · unfold anemoiPermuteChecked
    rw [if_neg h]
  · unfold anemoiPermuteChecked
    rw [if_pos h]
    exact ⟨_, rfl, by simp [h]⟩

/-- Counterexample to C7 as originally stated: on the degenerate t = 8 bundle
whose full matrix has an all-zero block in rows 0..3, columns 4..7,
MdsFullFast::new returns none, and a state of the correct length 8 makes
permute abort at the missing-fast-parameters panic: the length-mismatch
precondition is not the only error path inside permute. -/
theorem permute_length_contract_counterexample :
    ([0, 0, 0, 0, 0, 0, 0, 0] : List (ZMod 2)).length = wPos2bDeg.t ∧
      pos2bPermuteChecked wPos2bDeg [0, 0, 0, 0, 0, 0, 0, 0] =
        .error .missingFastParams := by
  constructor
  · rfl
  · rfl

/-- Witness for C7: a one-element state is rejected by the t = 2 Poseidon2b
engine with the length contract error; an 8-element state is accepted by the
t = 8 engine whose fast parameters are present; a two-element state is
accepted by the l = 1 Anemoi engine. -/
theorem permute_length_contract_witness :
    pos2bPermuteChecked wPos2b [1] = .error .lengthMismatch ∧
      (∃ out, pos2bPermuteChecked wPos2b8 [1, 0, 0, 0, 0, 0, 0, 0] = .ok out ∧
        out.length = ([1, 0, 0, 0, 0, 0, 0, 0] : List (ZMod 2)).length) ∧
      ∃ out, anemoiPermuteChecked wAnemoi [1, 0] = .ok out ∧
        out.length = ([1, 0] : List (ZMod 2)).length :=
  ⟨(permute_length_contract wPos2b wAnemoi [1] [1, 0]).1 (by decide),
   (permute_length_contract wPos2b8 wAnemoi [1, 0, 0, 0, 0, 0, 0, 0] [1, 0]).2.1
     (by decide) (by decide),
   (permute_length_contract wPos2b wAnemoi [1] [1, 0]).2.2.2 (by decide)⟩

end CheckedTheorems

section MdsFullFastTheorems

variable {F : Type} [Field F] [DecidableEq F]

theorem karat4_eq (h2 : (2 : F) = 0) (a00 a01 a10 a11 b00 b01 b10 b11 x0 x1 x2 x3 : F) :
    karat4 a00 a01 a10 a11 b00 b01 b10 b11 x0 x1 x2 x3 =
      (a00 * x0 + a01 * x1 + b00 * x2 + b01 * x3,
       a10 * x0 + a11 * x1 + b10 * x2 + b11 * x3,
       b00 * x0 + b01 * x1 + a00 * x2 + a01 * x3,
       b10 * x0 + b11 * x1 + a10 * x2 + a11 * x3) := by
  unfold karat4
  simp only [Prod.mk.injEq]
  refine ⟨by ring, by ring, ?_, ?_⟩
  · linear_combination (a00 * x0 + a01 * x1 + b00 * x2 + b01 * x3) * h2
  · linear_combination (a10 * x0 + a11 * x1 + b10 * x2 + b11 * x3) * h2

theorem sum_range_four_mul (f : ℕ → F) :
    ∀ k, ∑ j ∈ Finset.range (4 * k), f j =
      ∑ b ∈ Finset.range k, (f (4 * b) + f (4 * b + 1) + f (4 * b + 2) + f (4 * b + 3))
  | 0 => by simp
  | k + 1 => by
    rw [show 4 * (k + 1) = 4 * k + 1 + 1 + 1 + 1 by ring, Finset.sum_range_succ,
      Finset.sum_range_succ, Finset.sum_range_succ, Finset.sum_range_succ,
      sum_range_four_mul f k, Finset.sum_range_succ,
      show 4 * k + 1 + 1 = 4 * k + 2 by omega, show 4 * k + 2 + 1 = 4 * k + 3 by omega]
    ring

theorem karatPick_row (h2 : (2 : F) = 0) (m4 : ℕ → ℕ → F)
    (hsym : ∀ i, i < 2 → ∀ j, j < 2 →
      m4 (i + 2) (j + 2) = m4 i j ∧ m4 (i + 2) j = m4 i (j + 2))
    (x0 x1 x2 x3 : F) :
    ∀ j, j < 4 →
      karatPick (karat4 (m4 0 0) (m4 0 1) (m4 1 0) (m4 1 1)
        (m4 0 2) (m4 0 3) (m4 1 2) (m4 1 3) x0 x1 x2 x3) j =
      m4 j 0 * x0 + m4 j 1 * x1 + m4 j 2 * x2 + m4 j 3 * x3 := by
  intro j hj
  rw [karat4_eq h2]
  have e20 : m4 2 0 = m4 0 2 := by simpa using (hsym 0 (by omega) 0 (by omega)).2
  have e21 : m4 2 1 = m4 0 3 := by simpa using (hsym 0 (by omega) 1 (by omega)).2
  have e22 : m4 2 2 = m4 0 0 := by simpa using (hsym 0 (by omega) 0 (by omega)).1
  have e23 : m4 2 3 = m4 0 1 := by simpa using (hsym 0 (by omega) 1 (by omega)).1
  have e30 : m4 3 0 = m4 1 2 := by simpa using (hsym 1 (by omega) 0 (by omega)).2
  have e31 : m4 3 1 = m4 1 3 := by simpa using (hsym 1 (by omega) 1 (by omega)).2
  have e32 : m4 3 2 = m4 1 0 := by simpa using (hsym 1 (by omega) 0 (by omega)).1
  have e33 : m4 3 3 = m4 1 1 := by simpa using (hsym 1 (by omega) 1 (by omega)).1
  interval_cases j <;> simp only [karatPick] <;>
    norm_num [e20, e21, e22, e23, e30, e31, e32, e33]

theorem blockTmp_eq (h2 : (2 : F) = 0) (mds m4 : ℕ → ℕ → F) (state : ℕ → F)
    (hsym : ∀ i, i < 2 → ∀ j, j < 2 →
      m4 (i + 2) (j + 2) = m4 i j ∧ m4 (i + 2) j = m4 i (j + 2))
    (hAB : mds 0 4 = m4 0 0 ∧ mds 0 5 = m4 0 1 ∧ mds 1 4 = m4 1 0 ∧ mds 1 5 = m4 1 1 ∧
      mds 0 6 = m4 0 2 ∧ mds 0 7 = m4 0 3 ∧ mds 1 6 = m4 1 2 ∧ mds 1 7 = m4 1 3) :
    ∀ b j, j < 4 → blockTmp mds state (4 * b + j) =
      m4 j 0 * state (4 * b) + m4 j 1 * state (4 * b + 1) +
        m4 j 2 * state (4 * b + 2) + m4 j 3 * state (4 * b + 3) := by
  intro b j hj
  unfold blockTmp
  obtain ⟨e1, e2, e3, e4, e5, e6, e7, e8⟩ := hAB
  rw [e1, e2, e3, e4, e5, e6, e7, e8, show (4 * b + j) / 4 = b by omega,
    show (4 * b + j) % 4 = j by omega]
  exact karatPick_row h2 m4 hsym _ _ _ _ j hj

/-- C1: for every supported width t in {4,8,12,16,24}, assuming the supplied
full-round MDS matrix has the stated block structure (for t = 4 a 2x2 block
matrix (A,B;B,A) of 2x2 blocks; for t in {8,12,16,24} block-circulant
C tensor M4 with C = (X-1)I + J and X recovered as the ratio
mds[0][c] / mds[0][c+4] at the first nonzero mds[0][c+4]), the fast
block-decomposition path of mul_mds_full returns element-wise exactly the
same state as the naive O(t^2) row-by-column product. -/
theorem pos2b_mul_mds_full_fast_eq_naive (h2 : (2 : F) = 0) :
    (∀ p : Pos2b F, p.t = 4 →
      (∀ i, i < 2 → ∀ j, j < 2 →
        p.mdsFull (i + 2) (j + 2) = p.mdsFull i j ∧
          p.mdsFull (i + 2) j = p.mdsFull i (j + 2)) →
      ∀ (state : ℕ → F) (i : ℕ), i < 4 →
        mulMdsFull p state i = naiveMulVec 4 p.mdsFull state i) ∧
    (∀ (p : Pos2b F) (X : F) (m4 : ℕ → ℕ → F),
      (p.t = 8 ∨ p.t = 12 ∨ p.t = 16 ∨ p.t = 24) →
      p.mdsFullFast = mdsFullFastNew p.mdsFull p.t →
      (∀ i, i < 2 → ∀ j, j < 2 →
        m4 (i + 2) (j + 2) = m4 i j ∧ m4 (i + 2) j = m4 i (j + 2)) →
      (∀ bi, bi < p.t / 4 → ∀ bj, bj < p.t / 4 → ∀ i, i < 4 → ∀ j, j < 4 →
        p.mdsFull (4 * bi + i) (4 * bj + j) = (if bi = bj then X else 1) * m4 i j) →
      (∃ c, c < 4 ∧ p.mdsFull 0 (c + 4) ≠ 0) →
      ∀ (state : ℕ → F) (i : ℕ), i < p.t →
        mulMdsFull p state i = naiveMulVec p.t p.mdsFull state i) := by
  constructor
  · intro p ht hsym state i hi
    unfold mulMdsFull
    rw [if_pos ht]
    show (if i < 4 then
      karatPick
        (karat4 (p.mdsFull 0 0) (p.mdsFull 0 1) (p.mdsFull 1 0) (p.mdsFull 1 1)
          (p.mdsFull 0 2) (p.mdsFull 0 3) (p.mdsFull 1 2) (p.mdsFull 1 3)
          (state 0) (state 1) (state 2) (state 3)) i
      else state i) = naiveMulVec 4 p.mdsFull state i
    rw [if_pos hi, karatPick_row h2 p.mdsFull hsym (state 0) (state 1) (state 2) (state 3) i hi]
    unfold naiveMulVec
    rw [show (4 : ℕ) = 3 + 1 by omega, Finset.sum_range_succ, Finset.sum_range_succ,
      Finset.sum_range_succ, Finset.sum_range_succ, Finset.sum_range_zero]
    ring
  · intro p X m4 htmem hfast hsym hblock hex state i hi
    have ht4 : p.t = 4 * (p.t / 4) := by omega
    have hk2 : 2 ≤ p.t / 4 := by omega
    set k := p.t / 4 with hkdef
    have hA00 : p.mdsFull 0 4 = m4 0 0 := by
      simpa using hblock 0 (by omega) 1 (by omega) 0 (by omega) 0 (by omega)
    have hA01 : p.mdsFull 0 5 = m4 0 1 := by
      simpa using hblock 0 (by omega) 1 (by omega) 0 (by omega) 1 (by omega)
    have hA10 : p.mdsFull 1 4 = m4 1 0 := by
      simpa using hblock 0 (by omega) 1 (by omega) 1 (by omega) 0 (by omega)
    have hA11 : p.mdsFull 1 5 = m4 1 1 := by
      simpa using hblock 0 (by omega) 1 (by omega) 1 (by omega) 1 (by omega)
    have hB00 : p.mdsFull 0 6 = m4 0 2 := by
      simpa using hblock 0 (by omega) 1 (by omega) 0 (by omega) 2 (by omega)
    have hB01 : p.mdsFull 0 7 = m4 0 3 := by
      simpa using hblock 0 (by omega) 1 (by omega) 0 (by omega) 3 (by omega)
    have hB10 : p.mdsFull 1 6 = m4 1 2 := by
      simpa using hblock 0 (by omega) 1 (by omega) 1 (by omega) 2 (by omega)
    have hB11 : p.mdsFull 1 7 = m4 1 3 := by
      simpa using hblock 0 (by omega) 1 (by omega) 1 (by omega) 3 (by omega)
    have hnew : mdsFullFastNew p.mdsFull p.t = some (k, X + 1) := by
      unfold mdsFullFastNew
      rw [if_neg (show ¬(p.t < 8 ∨ p.t % 4 ≠ 0) by omega)]
      suffices hfx : findX p.mdsFull = some X by
        rw [hfx]
        rfl
      unfold findX
      cases hf : ((List.range 4).flatMap fun r => (List.range 4).map fun c => (r, c)).find?
          (fun rc => decide (p.mdsFull rc.1 (rc.2 + 4) ≠ 0)) with
      | none =>
        exfalso
        obtain ⟨c, hc4, hcne⟩ := hex
        have hmem : ((0 : ℕ), c) ∈
            (List.range 4).flatMap fun r => (List.range 4).map fun c => (r, c) :=
          List.mem_flatMap.mpr ⟨0, by simp, List.mem_map.mpr ⟨c, List.mem_range.mpr hc4, rfl⟩⟩
        have hno := List.find?_eq_none.mp hf _ hmem
        simp at hno
        exact hcne hno
      | some rc =>
        have hp := List.find?_some hf
        simp only [decide_eq_true_eq] at hp
        have hmem := List.mem_of_find?_eq_some hf
        simp only [List.mem_flatMap, List.mem_map, List.mem_range] at hmem
        obtain ⟨a, ha4, c, hc4, hac⟩ := hmem
        have hr1 : rc.1 < 4 := by rw [← hac]; exact ha4
        have hr2 : rc.2 < 4 := by rw [← hac]; exact hc4
        have hoff : p.mdsFull rc.1 (rc.2 + 4) = m4 rc.1 rc.2 := by
          have hb := hblock 0 (by omega) 1 (by omega) rc.1 (by omega) rc.2 (by omega)
          rw [show 4 * 0 + rc.1 = rc.1 by omega, show 4 * 1 + rc.2 = rc.2 + 4 by omega] at hb
          simpa using hb
        have hdiag : p.mdsFull rc.1 rc.2 = X * m4 rc.1 rc.2 := by
          have hb := hblock 0 (by omega) 0 (by omega) rc.1 (by omega) rc.2 (by omega)
          rw [show 4 * 0 + rc.1 = rc.1 by omega, show 4 * 0 + rc.2 = rc.2 by omega] at hb
          simpa using hb
        have hm4ne : m4 rc.1 rc.2 ≠ 0 := by
          rw [← hoff]
          exact hp
        show some (p.mdsFull rc.1 rc.2 * (p.mdsFull rc.1 (rc.2 + 4))⁻¹) = some X
        rw [hoff, hdiag, mul_inv_cancel_right₀ hm4ne]
    unfold mulMdsFull
    rw [if_neg (show ¬p.t = 4 by omega), if_neg (show ¬p.t = 6 by omega), if_pos htmem,
      hfast, hnew]
    show blockFastMul k (X + 1) p.mdsFull state i = naiveMulVec p.t p.mdsFull state i
    unfold blockFastMul naiveMulVec
    rw [if_pos (show i < 4 * k by omega), show p.t = 4 * k from ht4,
      sum_range_four_mul (fun j => p.mdsFull i j * state j) k]
    have hAB : p.mdsFull 0 4 = m4 0 0 ∧ p.mdsFull 0 5 = m4 0 1 ∧ p.mdsFull 1 4 = m4 1 0 ∧
        p.mdsFull 1 5 = m4 1 1 ∧ p.mdsFull 0 6 = m4 0 2 ∧ p.mdsFull 0 7 = m4 0 3 ∧
        p.mdsFull 1 6 = m4 1 2 ∧ p.mdsFull 1 7 = m4 1 3 :=
      ⟨hA00, hA01, hA10, hA11, hB00, hB01, hB10, hB11⟩
    have hterm : ∀ b ∈ Finset.range k,
        p.mdsFull i (4 * b) * state (4 * b) + p.mdsFull i (4 * b + 1) * state (4 * b + 1) +
          p.mdsFull i (4 * b + 2) * state (4 * b + 2) +
          p.mdsFull i (4 * b + 3) * state (4 * b + 3) =
        (if i / 4 = b then X else 1) * blockTmp p.mdsFull state (4 * b + i % 4) := by
      intro b hb
      have hbk := Finset.mem_range.mp hb
      have hbj : ∀ j, j < 4 →
          p.mdsFull i (4 * b + j) = (if i / 4 = b then X else 1) * m4 (i % 4) j := by
        intro j hj
        conv_lhs => rw [show i = 4 * (i / 4) + i % 4 by omega]
        exact hblock (i / 4) (by omega) b hbk (i % 4) (by omega) j hj
      have hb0 : p.mdsFull i (4 * b) = (if i / 4 = b then X else 1) * m4 (i % 4) 0 := by
        have := hbj 0 (by omega)
        simpa using this
      rw [blockTmp_eq h2 p.mdsFull m4 state hsym hAB b (i % 4) (by omega), hb0,
        hbj 1 (by omega), hbj 2 (by omega), hbj 3 (by omega)]
      ring
    rw [Finset.sum_congr rfl hterm,
      ← Finset.add_sum_erase _
        (fun b => (if i / 4 = b then X else 1) * blockTmp p.mdsFull state (4 * b + i % 4))
        (Finset.mem_range.mpr (show i / 4 < k by omega)),
      if_pos rfl]
    have herase : ∑ b ∈ (Finset.range k).erase (i / 4),
        (if i / 4 = b then X else 1) * blockTmp p.mdsFull state (4 * b + i % 4) =
        ∑ b ∈ (Finset.range k).erase (i / 4), blockTmp p.mdsFull state (4 * b + i % 4) := by
      refine Finset.sum_congr rfl fun b hb => ?_
      rw [if_neg (Ne.symm (Finset.ne_of_mem_erase hb)), one_mul]
    rw [herase, show 4 * (i / 4) + i % 4 = i by omega]
    have hS : ∑ b ∈ Finset.range k, blockTmp p.mdsFull state (4 * b + i % 4) =
        blockTmp p.mdsFull state i +
          ∑ b ∈ (Finset.range k).erase (i / 4), blockTmp p.mdsFull state (4 * b + i % 4) := by
      rw [← Finset.add_sum_erase _ (fun b => blockTmp p.mdsFull state (4 * b + i % 4))
        (Finset.mem_range.mpr (show i / 4 < k by omega)),
        show 4 * (i / 4) + i % 4 = i by omega]
    rw [hS]
    linear_combination (blockTmp p.mdsFull state i) * h2

/-- Witness for C1: the all-ones 8-by-8 matrix over GF(2) has the block
structure with X = 1 and M4 all ones; the fast path agrees with the naive
path on a concrete state. -/
theorem pos2b_mul_mds_full_fast_eq_naive_witness :
    mulMdsFull wPos2b8 wState 0 = naiveMulVec wPos2b8.t wPos2b8.mdsFull wState 0 :=
  (pos2b_mul_mds_full_fast_eq_naive (by decide)).2 wPos2b8 1 (fun _ _ => 1)
    (by decide) (by rfl) (by decide) (by decide) (by decide) wState 0 (by decide)

end MdsFullFastTheorems

section IsMdsTheorems

variable {F : Type} [Field F] [DecidableEq F]

theorem combosGo_mem (n : ℕ) :
    ∀ (k start : ℕ) (l : List ℕ),
      l ∈ combosGo n k start ↔
        l.length = k ∧ l.Pairwise (· < ·) ∧ ∀ x ∈ l, start ≤ x ∧ x < n
  | 0, start, l => by
    unfold combosGo
    simp only [List.mem_singleton]
    constructor
    · rintro rfl
      simp
    · rintro ⟨hlen, -, -⟩
      exact List.length_eq_zero.mp hlen
  | k + 1, start, l => by
    unfold combosGo
    simp only [List.mem_flatMap, List.mem_map, List.mem_range'_1]
    constructor
    · rintro ⟨i, ⟨hsi, hin⟩, tl, htl, rfl⟩
      have hin' : i < n := by omega
      obtain ⟨hlen, hpw, hbd⟩ := (combosGo_mem n k (i + 1) tl).mp htl
      refine ⟨by simp [hlen],
        List.pairwise_cons.mpr ⟨fun x hx => by have := hbd x hx; omega, hpw⟩, ?_⟩
      intro x hx
      rcases List.mem_cons.mp hx with rfl | hx
      · exact ⟨hsi, hin'⟩
      · have := hbd x hx
        constructor <;> omega
    · rintro ⟨hlen, hpw, hbd⟩
      cases l with
      | nil => simp at hlen
      | cons i tl =>
        obtain ⟨hhead, hpw'⟩ := List.pairwise_cons.mp hpw
        have hib := hbd i (List.mem_cons_self i tl)
        refine ⟨i, ⟨hib.1, by omega⟩, tl, (combosGo_mem n k (i + 1) tl).mpr
          ⟨by simpa using hlen, hpw',
           fun x hx => ⟨hhead x hx, (hbd x (List.mem_cons_of_mem i hx)).2⟩⟩, rfl⟩

theorem maskOf_testBit_aux :
    ∀ (l : List ℕ) (init j : ℕ),
      (l.foldl (fun m i => m ||| (1 <<< i)) init).testBit j =
        (init.testBit j || decide (j ∈ l))
  | [], init, j => by simp
  | i :: is, init, j => by
    rw [List.foldl_cons, maskOf_testBit_aux is _ j, Nat.testBit_lor, Nat.shiftLeft_eq,
      one_mul, Nat.testBit_two_pow]
    by_cases hij : i = j <;> by_cases hjs : j ∈ is <;>
      simp [hij, hjs, List.mem_cons, eq_comm]

theorem maskOf_testBit (l : List ℕ) (j : ℕ) : (maskOf l).testBit j = decide (j ∈ l) := by
  unfold maskOf
  rw [maskOf_testBit_aux, Nat.zero_testBit, Bool.false_or]

theorem maskOf_erase (l : List ℕ) (c : ℕ) (hnd : l.Nodup) (hc : c ∈ l)
    (hlt : ∀ x ∈ l, x < 16) :
    colMaskRemove (maskOf l) c = maskOf (l.erase c) := by
  unfold colMaskRemove
  apply Nat.eq_of_testBit_eq
  intro j
  rw [Nat.testBit_land, Nat.testBit_xor, Nat.shiftLeft_eq, one_mul, Nat.testBit_two_pow,
    maskOf_testBit, maskOf_testBit, show (65535 : ℕ) = 2 ^ 16 - 1 by norm_num,
    Nat.testBit_two_pow_sub_one]
  by_cases hjl : j ∈ l
  · have hj16 : j < 16 := hlt j hjl
    by_cases hjc : j = c
    · subst hjc
      simp [hj16, hjl, List.Nodup.mem_erase_iff hnd]
    · have hcj : ¬c = j := fun h => hjc h.symm
      simp [hjl, hj16, List.Nodup.mem_erase_iff hnd, hjc, hcj]
  · have hje : j ∉ l.erase c := fun h => hjl (List.mem_of_mem_erase h)
    simp [hjl, hje]

theorem lookupA_isSome_of_mem (cache : List ((ℕ × ℕ) × F)) (key : ℕ × ℕ)
    (h : ∃ e ∈ cache, e.1 = key) : (lookupA cache key).isSome := by
  induction cache with
  | nil => simp at h
  | cons e es ih =>
    unfold lookupA
    by_cases he : e.1 = key
    · rw [if_pos he]
      rfl
    · rw [if_neg he]
      apply ih
      obtain ⟨e', he', hk⟩ := h
      rcases List.mem_cons.mp he' with rfl | hm
      · exact absurd hk he
      · exact ⟨e', hm, hk⟩

theorem lookupA_cons_isSome (e : (ℕ × ℕ) × F) (cache : List ((ℕ × ℕ) × F)) (key : ℕ × ℕ)
    (h : (lookupA cache key).isSome) : (lookupA (e :: cache) key).isSome := by
  unfold lookupA
  by_cases he : e.1 = key
  · rw [if_pos he]
    rfl
  · rw [if_neg he]
    exact h

theorem detLoop_isSome (n s : ℕ) (hn16 : n ≤ 16) (m : ℕ → ℕ → F)
    (cache : List ((ℕ × ℕ) × F)) (hcomp : CacheComplete n s cache)
    (i : ℕ) (rtail cols : List ℕ)
    (hrows : i :: rtail ∈ combosGo n (s + 1) 0) (hcols : cols ∈ combosGo n (s + 1) 0) :
    ∀ (cs : List ℕ) (acc : F), (∀ c ∈ cs, c ∈ cols) →
      (detLoop (m i) cache (maskOf rtail) (maskOf cols) cs acc).isSome := by
  obtain ⟨hlen, hpw, hbd⟩ := (combosGo_mem n (s + 1) 0 _).mp hrows
  have hrt : rtail ∈ combosGo n s 0 := (combosGo_mem n s 0 rtail).mpr
    ⟨by simpa using hlen, (List.pairwise_cons.mp hpw).2,
      fun x hx => ⟨Nat.zero_le x, (hbd x (List.mem_cons_of_mem i hx)).2⟩⟩
  obtain ⟨hclen, hcpw, hcbd⟩ := (combosGo_mem n (s + 1) 0 cols).mp hcols
  have hcnd : cols.Nodup := hcpw.imp fun h => ne_of_lt h
  intro cs
  induction cs with
  | nil =>
    intro acc _
    rfl
  | cons c cs ih =>
    intro acc hsub
    have hcm : c ∈ cols := hsub c (List.mem_cons_self c cs)
    have hkey : colMaskRemove (maskOf cols) c = maskOf (cols.erase c) :=
      maskOf_erase cols c hcnd hcm fun x hx => lt_of_lt_of_le (hcbd x hx).2 hn16
    have her : cols.erase c ∈ combosGo n s 0 := (combosGo_mem n s 0 _).mpr
      ⟨by rw [List.length_erase_of_mem hcm, hclen]; omega,
        List.Pairwise.sublist (List.erase_sublist c cols) hcpw,
        fun x hx => ⟨Nat.zero_le x, (hcbd x (List.mem_of_mem_erase hx)).2⟩⟩
    have hlook := hcomp rtail hrt (cols.erase c) her
    obtain ⟨cof, hl⟩ := Option.isSome_iff_exists.mp hlook
    unfold detLoop
    rw [hkey]
    simp only [hl]
    exact ih (acc + m i c * cof) fun x hx => hsub x (List.mem_cons_of_mem c hx)

theorem pairsLoop_isSome (n s : ℕ) (hn16 : n ≤ 16) (m : ℕ → ℕ → F)
    (cache : List ((ℕ × ℕ) × F)) (hcomp : CacheComplete n s cache) :
    ∀ pairs : List (List ℕ × List ℕ),
      (∀ pr ∈ pairs, pr.1 ∈ combosGo n (s + 1) 0 ∧ pr.2 ∈ combosGo n (s + 1) 0) →
      ∀ (ok : Bool) (nc : List ((ℕ × ℕ) × F)), (pairsLoop m cache pairs ok nc).isSome
  | [], _, ok, nc => rfl
  | pr :: rest, hall, ok, nc => by
    obtain ⟨hr, hcl⟩ := hall pr (List.mem_cons_self pr rest)
    have hrest : ∀ q ∈ rest, q.1 ∈ combosGo n (s + 1) 0 ∧ q.2 ∈ combosGo n (s + 1) 0 :=
      fun q hq => hall q (List.mem_cons_of_mem pr hq)
    unfold pairsLoop
    obtain ⟨hlen, -, -⟩ := (combosGo_mem n (s + 1) 0 pr.1).mp hr
    cases hrows : pr.1 with
    | nil =>
      rw [hrows] at hlen
      simp at hlen
    | cons i rtail =>
      rw [hrows] at hr
      have hdet := detLoop_isSome n s hn16 m cache hcomp i rtail pr.2 hr hcl pr.2 0 fun c h => h
      show (match detLoop (m i) cache (maskOf rtail) (maskOf pr.2) pr.2 0 with
        | none => none
        | some det =>
          if det = 0 then pairsLoop m cache rest false nc
          else pairsLoop m cache rest ok (((maskOf (i :: rtail), maskOf pr.2), det) :: nc)).isSome
      obtain ⟨det, hdl⟩ := Option.isSome_iff_exists.mp hdet
      simp only [hdl]
      by_cases hz : det = 0
      · rw [if_pos hz]
        exact pairsLoop_isSome n s hn16 m cache hcomp rest hrest false nc
      · rw [if_neg hz]
        exact pairsLoop_isSome n s hn16 m cache hcomp rest hrest ok _

theorem pairsLoop_false (m : ℕ → ℕ → F) (cache : List ((ℕ × ℕ) × F)) :
    ∀ (pairs : List (List ℕ × List ℕ)) (nc : List ((ℕ × ℕ) × F)) (ok' : Bool)
      (nc' : List ((ℕ × ℕ) × F)),
      pairsLoop m cache pairs false nc = some (ok', nc') → ok' = false
  | [], nc, ok', nc', h => by
    unfold pairsLoop at h
    simp only [Option.some.injEq, Prod.mk.injEq] at h
    exact h.1.symm
  | pr :: rest, nc, ok', nc', h => by
    unfold pairsLoop at h
    cases hrows : pr.1 with
    | nil => simp [hrows] at h
    | cons i rtail =>
      simp only [hrows] at h
      cases hdl : detLoop (m i) cache (maskOf rtail) (maskOf pr.2) pr.2 0 with
      | none =>
        simp only [hdl] at h
        exact Option.noConfusion h
      | some det =>
        simp only [hdl] at h
        by_cases hz : det = 0
        · rw [if_pos hz] at h
          exact pairsLoop_false m cache rest nc ok' nc' h
        · rw [if_neg hz] at h
          exact pairsLoop_false m cache rest _ ok' nc' h

theorem pairsLoop_lookup (m : ℕ → ℕ → F) (cache : List ((ℕ × ℕ) × F)) :
    ∀ (pairs : List (List ℕ × List ℕ)) (ok : Bool) (nc nc' : List ((ℕ × ℕ) × F)),
      pairsLoop m cache pairs ok nc = some (true, nc') →
      (∀ pr ∈ pairs, (lookupA nc' (maskOf pr.1, maskOf pr.2)).isSome) ∧
        (∀ key, (lookupA nc key).isSome → (lookupA nc' key).isSome)
  | [], ok, nc, nc', h => by
    unfold pairsLoop at h
    simp only [Option.some.injEq, Prod.mk.injEq] at h
    obtain ⟨-, rfl⟩ := h
    exact ⟨by simp, fun key hk => hk⟩
  | pr :: rest, ok, nc, nc', h => by
    unfold pairsLoop at h
    cases hrows : pr.1 with
    | nil => simp [hrows] at h
    | cons i rtail =>
      simp only [hrows] at h
      cases hdl : detLoop (m i) cache (maskOf rtail) (maskOf pr.2) pr.2 0 with
      | none =>
        simp only [hdl] at h
        exact Option.noConfusion h
      | some det =>
        simp only [hdl] at h
        by_cases hz : det = 0
        · rw [if_pos hz] at h
          exact absurd (pairsLoop_false m cache rest nc true nc' h) (by simp)
        · rw [if_neg hz] at h
          obtain ⟨hrest, hpres⟩ := pairsLoop_lookup m cache rest ok _ nc' h
          constructor
          · intro q hq
            rcases List.mem_cons.mp hq with rfl | hq2
            · apply hpres
              rw [hrows]
              unfold lookupA
              rw [if_pos rfl]
              rfl
            · exact hrest q hq2
          · intro key hk
            exact hpres key (lookupA_cons_isSome _ nc key hk)

theorem sizesLoop_isSome (m : ℕ → ℕ → F) (n : ℕ) (hn16 : n ≤ 16) :
    ∀ (count offset : ℕ) (cache : List ((ℕ × ℕ) × F)),
      CacheComplete n (offset + 1) cache →
      (sizesLoop m n (List.range' (offset + 2) count) cache).isSome
  | 0, offset, cache, _ => rfl
  | count + 1, offset, cache, hcomp => by
    rw [List.range'_succ]
    unfold sizesLoop
    have hpairs : ∀ pr ∈ ((combosGo n (offset + 2) 0).flatMap fun rows =>
        (combosGo n (offset + 2) 0).map fun cols => (rows, cols)),
        pr.1 ∈ combosGo n (offset + 1 + 1) 0 ∧ pr.2 ∈ combosGo n (offset + 1 + 1) 0 := by
      intro pr hpr
      simp only [List.mem_flatMap, List.mem_map] at hpr
      obtain ⟨rows, hrows, cols, hcols, rfl⟩ := hpr
      exact ⟨hrows, hcols⟩
    have hsome := pairsLoop_isSome n (offset + 1) hn16 m cache hcomp _ hpairs true []
    obtain ⟨okc, hpl⟩ := Option.isSome_iff_exists.mp hsome
    simp only [hpl]
    obtain ⟨ok, nc⟩ := okc
    cases ok with
    | false =>
      rw [if_pos (by simp)]
      rfl
    | true =>
      by_cases hemp : nc.isEmpty
      · rw [if_pos (by simp [hemp])]
        rfl
      · rw [if_neg (by simp [hemp])]
        have hcomp2 : CacheComplete n (offset + 2) nc := by
          intro rows hrows cols hcols
          refine (pairsLoop_lookup m cache _ true [] nc hpl).1 (rows, cols) ?_
          exact List.mem_flatMap.mpr ⟨rows, hrows, List.mem_map.mpr ⟨cols, hcols, rfl⟩⟩
        exact sizesLoop_isSome m n hn16 count (offset + 1) nc hcomp2

/-- C10: for every square n-by-n matrix with 1 ≤ n ≤ 16, every cofactor-cache
lookup performed inside is_mds succeeds: all n^2 size-1 minors are seeded
initially and the engine only advances from size s-1 to size s after either
caching every size-(s-1) minor or returning false, so the lookup's panic
branch is unreachable (isMds never returns none). -/
theorem is_mds_cofactor_lookup_total (n : ℕ) (m : ℕ → ℕ → F)
    (hn1 : 1 ≤ n) (hn16 : n ≤ 16) : (isMds n m).isSome := by
  unfold isMds
  by_cases hE : entriesNonzero m n
  · rw [if_pos hE]
    have hseed : CacheComplete n 1 (seedCache m n) := by
      intro rows hrows cols hcols
      obtain ⟨hrl, -, hrb⟩ := (combosGo_mem n 1 0 rows).mp hrows
      obtain ⟨hcl, -, hcb⟩ := (combosGo_mem n 1 0 cols).mp hcols
      obtain ⟨r, rfl⟩ := List.length_eq_one.mp hrl
      obtain ⟨c, rfl⟩ := List.length_eq_one.mp hcl
      apply lookupA_isSome_of_mem
      refine ⟨((1 <<< r, 1 <<< c), m r c), ?_, ?_⟩
      · unfold seedCache
        exact List.mem_flatMap.mpr ⟨r, List.mem_range.mpr (hrb r (by simp)).2,
          List.mem_map.mpr ⟨c, List.mem_range.mpr (hcb c (by simp)).2, rfl⟩⟩
      · have h1 : maskOf [r] = 1 <<< r := by
          unfold maskOf
          simp
        have h2 : maskOf [c] = 1 <<< c := by
          unfold maskOf
          simp
        rw [h1, h2]
    exact sizesLoop_isSome m n hn16 (n - 1) 0 (seedCache m n) hseed
  · rw [if_neg hE]
    rfl

/-- C8: for a 2-by-2 matrix [[a,b],[c,d]]: if any entry is the additive
identity then is_mds returns false; and if all four entries are nonzero then
is_mds returns true if and only if a·d ≠ b·c (the size-2 determinant
a·d + b·c over characteristic 2 is nonzero). -/
theorem is_mds_2x2 (h2 : (2 : F) = 0) (a b c d : F) :
    ((a = 0 ∨ b = 0 ∨ c = 0 ∨ d = 0) → isMds 2 (mat2 a b c d) = some false) ∧
    (a ≠ 0 → b ≠ 0 → c ≠ 0 → d ≠ 0 →
      (isMds 2 (mat2 a b c d) = some true ↔ a * d ≠ b * c)) := by
  constructor
  · intro h
    have hEf : entriesNonzero (mat2 a b c d) 2 = false := by
      unfold entriesNonzero
      rw [show List.range 2 = [0, 1] from rfl]
      rcases h with h | h | h | h <;> simp [mat2, h]
    unfold isMds
    rw [if_neg (by simp [hEf])]
  · intro ha hb hc hd
    have hEtrue : entriesNonzero (mat2 a b c d) 2 = true := by
      unfold entriesNonzero
      rw [show List.range 2 = [0, 1] from rfl]
      simp [mat2, ha, hb, hc, hd]
    have hpl : pairsLoop (mat2 a b c d) (seedCache (mat2 a b c d) 2)
        ((combosGo 2 2 0).flatMap fun rows => (combosGo 2 2 0).map fun cols => (rows, cols))
        true [] =
        if (0 + a * d + b * c : F) = 0 then some (false, [])
        else some (true, [((3, 3), 0 + a * d + b * c)]) := by rfl
    have hmain : isMds 2 (mat2 a b c d) =
        if (0 + a * d + b * c : F) = 0 then some false else some true := by
      unfold isMds
      rw [if_pos hEtrue, show List.range' 2 (2 - 1) = [2] from rfl]
      unfold sizesLoop
      rw [hpl]
      by_cases hz : (0 + a * d + b * c : F) = 0
      · simp only [if_pos hz]
        rfl
      · simp only [if_neg hz]
        rfl
    rw [hmain]
    constructor
    · intro htrue heq
      by_cases hz : (0 + a * d + b * c : F) = 0
      · rw [if_pos hz] at htrue
        exact absurd htrue (by simp)
      · apply hz
        linear_combination heq + b * c * h2
    · intro hne
      have hz : (0 + a * d + b * c : F) ≠ 0 := by
        intro hz0
        apply hne
        linear_combination hz0 - b * c * h2
      rw [if_neg hz]

/-- Witness for C8 over GF(2): a zero entry is rejected, and the all-ones
matrix (the only all-nonzero 2-by-2 over GF(2)) realizes the degenerate case
a·d = b·c of the equivalence. -/
theorem is_mds_2x2_witness :
    isMds 2 (mat2 (0 : ZMod 2) 1 1 1) = some false ∧
      (isMds 2 (mat2 (1 : ZMod 2) 1 1 1) = some true ↔ (1 : ZMod 2) * 1 ≠ 1 * 1) :=
  ⟨(is_mds_2x2 (by decide) 0 1 1 1).1 (Or.inl rfl),
   (is_mds_2x2 (by decide) 1 1 1 1).2 one_ne_zero one_ne_zero one_ne_zero one_ne_zero⟩

/-- Witness for C10 at the all-ones 2-by-2 matrix over GF(2). -/
theorem is_mds_cofactor_lookup_total_witness :
    (1 ≤ 2 ∧ 2 ≤ 16) ∧ (isMds 2 (mat2 (1 : ZMod 2) 1 1 1)).isSome :=
  ⟨⟨by decide, by decide⟩,
    is_mds_cofactor_lookup_total 2 (mat2 1 1 1 1) (by decide) (by decide)⟩

end IsMdsTheorems

section CirculantTheorems

set_option maxHeartbeats 8000000 in
set_option maxRecDepth 10000 in
/-- C6 (documenting the divergence): the source build_circulant_mds has no cap
on the coefficient limit and no "search exhausted" report: its loop retries
with limit + 1 forever and returns only on success.  Over GF(2) with l = 5 no
circulant candidate ever passes is_mds (every candidate either has a zero
entry or is the all-ones matrix, whose 2-by-2 minors vanish), so the real
code spins forever; in the fueled model, scanning the entire initial limit
l + 1 = 6 finds nothing and the loop is still running. -/
theorem circulant_search_no_cap_spins : buildCirculantMdsFueled 5 emb2 1 = none := by
  have h : (buildCirculantMdsFueled 5 emb2 1).isSome = false := by decide
  cases hb : buildCirculantMdsFueled 5 emb2 1 with
  | none => rfl
  | some m =>
    rw [hb] at h
    simp at h

end CirculantTheorems
